import Mathlib

namespace Foam

/-!
# Verification of the foam2 in-memory multi-index data access engine (MDAO)

Shallow embedding of `src/foam/dao/MDAO.java` (the engine facade) together
with the index machinery it is built on (`AltIndex`, `TreeIndex`, `OrPlan`,
`Predicate.partialEval`, `AbstractFObject.maybeClone`).  The facade logic is
translated directly from the Java source; the index machinery is not part of
the provided sources, so it is modelled from the specification (§4.2–§4.5),
with each such definition marked `Modelled from the spec:` in its doc string.
-/

/-- A record: a structured value with a designated primary-key property `id`
and one further indexable property `a` (as in the spec's running example
`{id:1,a:5}`). -/
structure Rec where
  id : Nat
  a : Nat
deriving DecidableEq, Repr

/-- `PropertyInfo`: a typed accessor for one property of a record.  `pid` is
the primary-key property (`id`), `pa` the secondary property (`a`). -/
inductive PropertyInfo where
  | pid : PropertyInfo
  | pa : PropertyInfo
deriving DecidableEq, Repr

/-- Property access (`PropertyInfo.get` in the Java source). -/
def PropertyInfo.get : PropertyInfo → Rec → Nat
  | .pid, r => r.id
  | .pa, r => r.a

/-- Predicate: boolean expression tree over record properties, with equality,
range (`gt`), n-ary conjunction and n-ary disjunction nodes (mirrors
`foam.mlang.predicate`). -/
inductive Predicate where
  | eq : PropertyInfo → Nat → Predicate
  | gt : PropertyInfo → Nat → Predicate
  | and : List Predicate → Predicate
  | or : List Predicate → Predicate
deriving Repr

mutual

/-- Truth value of a predicate on a record (`Predicate.f` in foam). -/
def evalPred : Predicate → Rec → Bool
  | .eq p v, r => PropertyInfo.get p r == v
  | .gt p v, r => v < PropertyInfo.get p r
  | .and args, r => evalAll args r
  | .or args, r => evalAny args r

/-- Conjunction of a list of predicates on a record. -/
def evalAll : List Predicate → Rec → Bool
  | [], _ => true
  | a :: as, r => evalPred a r && evalAll as r

/-- Disjunction of a list of predicates on a record. -/
def evalAny : List Predicate → Rec → Bool
  | [], _ => false
  | a :: as, r => evalPred a r || evalAny as r

end

/-- Flatten one level of nested conjunctions: `And(And(x),y) ↝ x ++ [y]`. -/
def flattenAnd : List Predicate → List Predicate
  | [] => []
  | .and inner :: rest => inner ++ flattenAnd rest
  | a :: rest => a :: flattenAnd rest

/-- Flatten one level of nested disjunctions. -/
def flattenOr : List Predicate → List Predicate
  | [] => []
  | .or inner :: rest => inner ++ flattenOr rest
  | a :: rest => a :: flattenOr rest

/-- A conjunction of a single term collapses to that term. -/
def mkAnd : List Predicate → Predicate
  | [a] => a
  | l => .and l

/-- A disjunction of a single term collapses to that term. -/
def mkOr : List Predicate → Predicate
  | [a] => a
  | l => .or l

mutual

/-- Modelled from the spec: `Predicate.partialEval` (not in the provided
sources; §4.4 and the comment in `MDAO.select_`): rewrite the predicate tree
to remove redundant nesting — a conjunction of one term collapses to that
term (`And(EQ()) ⇒ EQ()`) and nested conjunctions flatten
(`And(And(EQ()),GT()) ⇒ And(EQ(),GT())`); disjunctions are treated
symmetrically.  Semantics-preserving for every input. -/
def partialEval : Predicate → Predicate
  | .eq p v => .eq p v
  | .gt p v => .gt p v
  | .and args => mkAnd (flattenAnd (mapPE args))
  | .or args => mkOr (flattenOr (mapPE args))

/-- `partialEval` mapped over the children of a node. -/
def mapPE : List Predicate → List Predicate
  | [] => []
  | a :: as => partialEval a :: mapPE as

end

/-! ## TreeIndex

Modelled from the spec (§4.2): a TreeIndex is an ordered map keyed by one
property's value; each node holds a nested tail index (here: the primary-key
index, bottoming out at a record leaf), so duplicate key values chain into
the tail rather than being dropped.  The balanced tree is modelled as a
keyed association list of nodes — an observationally equivalent persistent
map (the spec fixes observable behavior, not the balancing mechanism). -/

/-- The state of one TreeIndex node chain: key value ↦ tail records. -/
abbrev TreeState := List (Nat × List Rec)

/-- Modelled from the spec: ValueIndex/primary-key tail `put` — locate the
record with the same primary key and replace it, else append. -/
def tailPut (r : Rec) : List Rec → List Rec
  | [] => [r]
  | s :: rest => if s.id = r.id then r :: rest else s :: tailPut r rest

/-- Modelled from the spec: tail `remove` — delete the record with the given
primary key, if present. -/
def tailRemove (i : Nat) : List Rec → List Rec
  | [] => []
  | s :: rest => if s.id = i then rest else s :: tailRemove i rest

/-- Modelled from the spec: TreeIndex `put` — locate (or create) the node
for the record's key under property `p` and delegate into the tail index. -/
def treePut (p : PropertyInfo) (r : Rec) : TreeState → TreeState
  | [] => [(PropertyInfo.get p r, [r])]
  | (k, t) :: rest =>
    if k = PropertyInfo.get p r then (k, tailPut r t) :: rest
    else (k, t) :: treePut p r rest

/-- Modelled from the spec: TreeIndex `remove` — delegate into the tail of
the record's node; delete the node if its tail becomes empty. -/
def treeRemove (p : PropertyInfo) (r : Rec) : TreeState → TreeState
  | [] => []
  | (k, t) :: rest =>
    if k = PropertyInfo.get p r then
      let t' := tailRemove r.id t
      if t' = [] then rest else (k, t') :: rest
    else (k, t) :: treeRemove p r rest

/-- The records held in the node with key value `v` (empty if no node). -/
def treeLookup (st : TreeState) (v : Nat) : List Rec :=
  match st.find? (fun node => node.1 == v) with
  | some node => node.2
  | none => []

/-- All records held by a TreeIndex, tails concatenated in node order. -/
def treeContents (st : TreeState) : List Rec :=
  (st.map Prod.snd).flatten

/-- Number of records held by a TreeIndex. -/
def treeSize (st : TreeState) : Nat := (treeContents st).length

/-- Structural invariant of a TreeIndex on property `p`: node keys are
distinct, no node has an empty tail, and every record sits in the node of
its own key value. -/
structure TreeInv (p : PropertyInfo) (st : TreeState) : Prop where
  nodupKeys : (st.map Prod.fst).Nodup
  nonemptyTails : ∀ node ∈ st, node.2 ≠ []
  keyed : ∀ node ∈ st, ∀ r ∈ node.2, PropertyInfo.get p r = node.1

/-! ## Plans, AltIndex and the MDAO engine facade

The facade (`put_`, `remove_`, `find_`, `select_`, `removeAll_`, `addIndex`)
is translated directly from `src/foam/dao/MDAO.java`; the planning machinery
it calls into (`AltIndex.planFind`/`planSelect`, `Plan.select`, `OrPlan`) is
modelled from the spec (§4.1–§4.5). -/

/-- `AbstractDAO.MAX_SAFE_INTEGER`: the unbounded-limit sentinel. -/
def MAX_SAFE_INTEGER : Nat := 9007199254740991

/-- Scan the top-level conjuncts for an equality test on property `p`
(used by the TreeIndex planner to narrow a scan to one key bucket). -/
def firstEqTop (p : PropertyInfo) : List Predicate → Option Nat
  | [] => none
  | .eq q v :: as => if q = p then some v else firstEqTop p as
  | _ :: as => firstEqTop p as

/-- Modelled from the spec: the equality value for property `p` entailed by
a predicate, if the predicate is such an equality or a conjunction
containing one at top level. -/
def extractEq (p : PropertyInfo) : Predicate → Option Nat
  | .eq q v => if q = p then some v else none
  | .and args => firstEqTop p args
  | _ => none

/-- Modelled from the spec: a find plan — cost estimate plus the record the
lookup produces (§4.1 `planFind`). -/
structure FindPlan where
  cost : Nat
  result : Option Rec

/-- Modelled from the spec: TreeIndex `planFind` — the primary-key index
resolves a key directly via its node map (cheap); any other TreeIndex can
only offer a full scan for a primary-key lookup, with cost equal to its
size. -/
def treePlanFind (p : PropertyInfo) (st : TreeState) (k : Nat) : FindPlan :=
  if p = PropertyInfo.pid then
    { cost := 1, result := (treeLookup st k).head? }
  else
    { cost := treeSize st, result := (treeContents st).find? (fun r => r.id == k) }

/-- Modelled from the spec: AltIndex plan choice — pick the lowest-cost
candidate, ties broken deterministically by registration order
(first-registered wins). -/
def chooseFind (p : FindPlan) (ps : List FindPlan) : FindPlan :=
  ps.foldl (fun best q => if q.cost < best.cost then q else best) p

/-- Modelled from the spec: a select plan — cost estimate plus the candidate
record scan and the query parameters it was planned for (§4.1
`planSelect`). -/
structure SelectPlan where
  cost : Nat
  scan : List Rec
  skip : Nat
  limit : Nat
  order : Option PropertyInfo
  pred : Option Predicate

/-- Modelled from the spec: TreeIndex `planSelect` — an equality on the
indexed property narrows the scan to that key's bucket with cost
proportional to the match count; any other predicate shape degrades to a
full-subtree scan (graceful degradation, §7). -/
def treePlanSelect (p : PropertyInfo) (st : TreeState) (skip limit : Nat)
    (order : Option PropertyInfo) (pred : Option Predicate) : SelectPlan :=
  match pred.bind (extractEq p) with
  | some v =>
    { cost := (treeLookup st v).length, scan := treeLookup st v
      skip := skip, limit := limit, order := order, pred := pred }
  | none =>
    { cost := treeSize st, scan := treeContents st
      skip := skip, limit := limit, order := order, pred := pred }

/-- Modelled from the spec: the zero-cost empty plan (empty tree ⇒ empty
scan, §4.2). -/
def emptySelectPlan (skip limit : Nat) (order : Option PropertyInfo)
    (pred : Option Predicate) : SelectPlan :=
  { cost := 0, scan := [], skip := skip, limit := limit, order := order, pred := pred }

/-- Modelled from the spec: AltIndex select-plan choice — lowest cost wins,
first-registered wins ties. -/
def chooseSelect (p : SelectPlan) (ps : List SelectPlan) : SelectPlan :=
  ps.foldl (fun best q => if q.cost < best.cost then q else best) p

/-- Truth value of an optional predicate (a `null` predicate matches all). -/
def evalOpt (pred : Option Predicate) (r : Rec) : Bool :=
  match pred with
  | none => true
  | some P => evalPred P r

/-- Ordering of a result list by an optional comparator (a property used as
sort key; `null` keeps scan order). -/
def applyOrder (order : Option PropertyInfo) (l : List Rec) : List Rec :=
  match order with
  | none => l
  | some p => l.insertionSort (fun a b => PropertyInfo.get p a ≤ PropertyInfo.get p b)

/-- Modelled from the spec: executing a select plan — filter the candidate
scan by the planned predicate, then apply order, skip and limit. -/
def execPlan (pl : SelectPlan) : List Rec :=
  ((applyOrder pl.order (pl.scan.filter (evalOpt pl.pred))).drop pl.skip).take pl.limit

/-- The MDAO engine: one root AltIndex whose alternatives are TreeIndexes,
each slot pairing the indexed property with that alternative's state
(`index_` and `state_` in `MDAO.java`; the state token is array-shaped, one
slot per alternative). -/
structure Engine where
  slots : List (PropertyInfo × TreeState)
deriving DecidableEq, Repr

/-- `new MDAO(of)`: a root AltIndex over the primary-key TreeIndex, plus one
further TreeIndex alternative per property in `extras` (registered via
`addIndex` while the engine is still empty). -/
def mkEngine (extras : List PropertyInfo) : Engine :=
  { slots := (PropertyInfo.pid, ([] : TreeState)) :: extras.map (fun p => (p, ([] : TreeState))) }

/-- `MDAO.addIndex(prop)`: registers one further TreeIndex alternative;
records written before registration are not backfilled (spec §6). -/
def Engine.addIndex (e : Engine) (p : PropertyInfo) : Engine :=
  { slots := e.slots ++ [(p, ([] : TreeState))] }

/-- Modelled from the spec: AltIndex `planFind` followed by `Plan.find` —
ask every alternative for a candidate find plan, pick the cheapest, execute
it (`index_.planFind(state_, key).find(state_, key)` in `MDAO.find_`). -/
def altFind (e : Engine) (k : Nat) : Option Rec :=
  match e.slots.map (fun s => treePlanFind s.1 s.2 k) with
  | [] => none
  | p :: ps => (chooseFind p ps).result

/-- Modelled from the spec: AltIndex `planSelect` — ask every alternative
for a candidate select plan for the same parameters, pick the cheapest. -/
def altPlanSelect (e : Engine) (skip limit : Nat) (order : Option PropertyInfo)
    (pred : Option Predicate) : SelectPlan :=
  match e.slots.map (fun s => treePlanSelect s.1 s.2 skip limit order pred) with
  | [] => emptySelectPlan skip limit order pred
  | p :: ps => chooseSelect p ps

/-- Modelled from the spec: `AbstractFObject.maybeClone` at the level of
record values — the defensive copy is equal as a value to the original
(aliasing is modelled separately by `heapMaybeClone`). -/
def maybeClone (x : Option Rec) : Option Rec := x

/-- `MDAO.find_`: `null` yields `null`; a full record resolves to its
primary key, a raw key is used directly; the lookup goes through the
cheapest find plan and the result is defensively copied. -/
def Engine.find_ (e : Engine) (o : Option (Nat ⊕ Rec)) : Option Rec :=
  match o with
  | none => none
  | some (Sum.inl k) => maybeClone (altFind e k)
  | some (Sum.inr r) => maybeClone (altFind e r.id)

/-- `MDAO.put_`: find the existing record by primary key; if present remove
it from the index first (fanned out to every alternative), then insert the
new value into every alternative; returns the stored record `obj`. -/
def Engine.put_ (e : Engine) (r : Rec) : Rec × Engine :=
  let e1 : Engine :=
    match e.find_ (some (Sum.inr r)) with
    | some oldValue => { slots := e.slots.map (fun s => (s.1, treeRemove s.1 oldValue s.2)) }
    | none => e
  (r, { slots := e1.slots.map (fun s => (s.1, treePut s.1 r s.2)) })

/-- `MDAO.remove_`: `null` yields `null` with the state untouched; otherwise
look the record up by primary key, remove the found record from every
alternative if present, and return it (or `null`). -/
def Engine.remove_ (e : Engine) (o : Option Rec) : Option Rec × Engine :=
  match o with
  | none => (none, e)
  | some r =>
    match e.find_ (some (Sum.inr r)) with
    | none => (none, e)
    | some found =>
      (some found, { slots := e.slots.map (fun s => (s.1, treeRemove s.1 found s.2)) })

/-- The sub-plan list built by `MDAO.select_` for a top-level disjunction:
one plan per disjunct, each requested with skip `0`, limit
`MAX_SAFE_INTEGER`, and a `null` order (the loop over
`((Or) simplePredicate).getArgs()` in the source). -/
def orPlanList (e : Engine) (args : List Predicate) : List SelectPlan :=
  args.map (fun a => altPlanSelect e 0 MAX_SAFE_INTEGER none (some a))

/-- Modelled from the spec: `OrPlan.select` — execute every sub-plan into a
shared unbounded buffer, then apply the caller's order, skip and limit over
the unioned buffer; duplicates are not suppressed (§4.5). -/
def orPlanSelect (planList : List SelectPlan) (skip limit : Nat)
    (order : Option PropertyInfo) : List Rec :=
  (((applyOrder order ((planList.map execPlan).flatten)).drop skip).take limit)

/-- `MDAO.select_`: simplify the predicate with `partialEval`; a top-level
disjunction is decomposed into per-disjunct sub-plans merged by `OrPlan`;
anything else is served by the single cheapest AltIndex plan; results are
streamed into the sink (an `ArraySink` modelled as a list) and the sink is
returned. -/
def Engine.select_ (e : Engine) (sink : List Rec) (skip limit : Nat)
    (order : Option PropertyInfo) (predicate : Option Predicate) : List Rec :=
  let simplePredicate := predicate.map partialEval
  match simplePredicate with
  | some (.or args) => sink ++ orPlanSelect (orPlanList e args) skip limit order
  | sp => sink ++ execPlan (altPlanSelect e skip limit order sp)

/-- `MDAO.removeAll_`: `state_ = null` — unconditionally discard the entire
index state; the skip/limit/order/predicate parameters are ignored. -/
def Engine.removeAll_ (e : Engine) (_skip _limit : Nat)
    (_order : Option PropertyInfo) (_predicate : Option Predicate) : Engine :=
  { slots := e.slots.map (fun s => (s.1, ([] : TreeState))) }

/-! ## The client-visible operation sequences and their specification model -/

/-- One engine write: a `put` or a `remove` of a record. -/
inductive Op where
  | put : Rec → Op
  | del : Rec → Op
deriving DecidableEq, Repr

/-- Run one write against the engine. -/
def stepOp (e : Engine) : Op → Engine
  | .put r => (e.put_ r).2
  | .del r => (e.remove_ (some r)).2

/-- Run a sequence of writes against the engine. -/
def applyOps (e : Engine) (ops : List Op) : Engine :=
  ops.foldl stepOp e

/-- Specification model of one write on the logical record set: `put`
upserts by primary key (most recent first), `remove` deletes by primary
key. -/
def specStep (recs : List Rec) : Op → List Rec
  | .put r => r :: recs.filter (fun s => s.id != r.id)
  | .del r => recs.filter (fun s => s.id != r.id)

/-- Specification model of the record set after a sequence of writes. -/
def specRecs (ops : List Op) : List Rec :=
  ops.foldl specStep []

/-- Specification model of `find`: the most recently put record with the
given primary key. -/
def specFind (recs : List Rec) (k : Nat) : Option Rec :=
  recs.find? (fun r => r.id == k)

/-! ## The engine invariant: every alternative holds the complete logical
record set (spec §3), and primary keys are unique. -/

/-- Engine invariant relating the index state to the logical record set:
the AltIndex is non-empty (it always holds at least the primary-key
TreeIndex), primary keys are unique, and every alternative satisfies the
TreeIndex structural invariant while holding exactly the logical record
set. -/
def EngineInv (e : Engine) (recs : List Rec) : Prop :=
  e.slots ≠ [] ∧ ((recs.map Rec.id).Nodup) ∧
    ∀ s ∈ e.slots, TreeInv s.1 s.2 ∧ (treeContents s.2).Perm recs

/-- The number of independent sub-plans a predicate decomposes into: the
arity of a top-level disjunction, `1` otherwise. -/
def numDisjuncts : Predicate → Nat
  | .or args => args.length
  | _ => 1

/-! ## Heap model of the defensive copy (`AbstractFObject.maybeClone`) -/

instance : Inhabited Rec := ⟨⟨0, 0⟩⟩

/-- Reading a record object from the heap (addresses are list indices). -/
def heapGet (h : List Rec) (a : Nat) : Rec := h.getD a default

/-- Modelled from the spec: `AbstractFObject.maybeClone` (not in the
provided sources) with object identity made explicit — the defensive copy
is a fresh object: it is allocated at a fresh address holding a value equal
to the original's. -/
def heapMaybeClone (h : List Rec) (a : Nat) : List Rec × Nat :=
  (h ++ [heapGet h a], h.length)

/-- In-place mutation of the stored record object at address `a`. -/
def heapSet (h : List Rec) (a : Nat) (v : Rec) : List Rec := h.set a v

/-! ## Properties -/

theorem evalAll_append (l₁ l₂ : List Predicate) (r : Rec) :
    evalAll (l₁ ++ l₂) r = (evalAll l₁ r && evalAll l₂ r) := by
  induction l₁ with
  | nil => simp [evalAll]
  | cons a as ih => simp [evalAll, ih, Bool.and_assoc]

theorem evalAny_append (l₁ l₂ : List Predicate) (r : Rec) :
    evalAny (l₁ ++ l₂) r = (evalAny l₁ r || evalAny l₂ r) := by
  induction l₁ with
  | nil => simp [evalAny]
  | cons a as ih => simp [evalAny, ih, Bool.or_assoc]

theorem evalAll_flattenAnd (l : List Predicate) (r : Rec) :
    evalAll (flattenAnd l) r = evalAll l r := by
  induction l with
  | nil => rfl
  | cons a rest ih =>
    cases a <;> simp [flattenAnd, evalAll, evalAll_append, evalPred, ih]

theorem evalAny_flattenOr (l : List Predicate) (r : Rec) :
    evalAny (flattenOr l) r = evalAny l r := by
  induction l with
  | nil => rfl
  | cons a rest ih =>
    cases a <;> simp [flattenOr, evalAny, evalAny_append, evalPred, ih]

theorem evalPred_mkAnd (l : List Predicate) (r : Rec) :
    evalPred (mkAnd l) r = evalAll l r := by
  match l with
  | [] => rfl
  | [a] => simp [mkAnd, evalAll]
  | a :: b :: t => rfl

theorem evalPred_mkOr (l : List Predicate) (r : Rec) :
    evalPred (mkOr l) r = evalAny l r := by
  match l with
  | [] => rfl
  | [a] => simp [mkOr, evalAny]
  | a :: b :: t => rfl

mutual

/-- `partialEval` is semantics-preserving: simplification never changes the
truth value of a predicate on any record. -/
theorem partialEval_sound (P : Predicate) (r : Rec) :
    evalPred (partialEval P) r = evalPred P r := by
  match P with
  | .eq p v => rfl
  | .gt p v => rfl
  | .and args =>
    rw [partialEval, evalPred_mkAnd, evalAll_flattenAnd,
      show evalPred (.and args) r = evalAll args r from rfl,
      (mapPE_sound args r).1]
  | .or args =>
    rw [partialEval, evalPred_mkOr, evalAny_flattenOr,
      show evalPred (.or args) r = evalAny args r from rfl,
      (mapPE_sound args r).2]
termination_by sizeOf P

/-- Simplifying every child preserves both the conjunction and the
disjunction of a list of predicates. -/
theorem mapPE_sound (l : List Predicate) (r : Rec) :
    evalAll (mapPE l) r = evalAll l r ∧ evalAny (mapPE l) r = evalAny l r := by
  match l with
  | [] => exact ⟨rfl, rfl⟩
  | a :: as =>
    have h1 := partialEval_sound a r
    have h2 := mapPE_sound as r
    exact ⟨by simp [mapPE, evalAll, h1, h2.1], by simp [mapPE, evalAny, h1, h2.2]⟩
termination_by sizeOf l

end

theorem treeInv_nil (p : PropertyInfo) : TreeInv p [] :=
  ⟨List.nodup_nil, by simp, by simp⟩

theorem treeContents_nil : treeContents [] = [] := rfl

theorem treeContents_cons (k : Nat) (t : List Rec) (rest : TreeState) :
    treeContents ((k, t) :: rest) = t ++ treeContents rest := rfl

theorem treeInv_cons_iff (p : PropertyInfo) (k : Nat) (t : List Rec) (rest : TreeState) :
    TreeInv p ((k, t) :: rest) ↔
      k ∉ rest.map Prod.fst ∧ t ≠ [] ∧ (∀ r ∈ t, PropertyInfo.get p r = k) ∧ TreeInv p rest := by
  constructor
  · rintro ⟨h1, h2, h3⟩
    rw [List.map_cons, List.nodup_cons] at h1
    exact ⟨h1.1, h2 (k, t) (by simp), h3 (k, t) (by simp),
      h1.2, fun n hn => h2 n (by simp [hn]), fun n hn => h3 n (by simp [hn])⟩
  · rintro ⟨h1, h2, h3, h4⟩
    refine ⟨?_, ?_, ?_⟩
    · rw [List.map_cons, List.nodup_cons]; exact ⟨h1, h4.nodupKeys⟩
    · rintro n hn
      rcases List.mem_cons.mp hn with h | h
      · rw [h]; exact h2
      · exact h4.nonemptyTails n h
    · rintro n hn
      rcases List.mem_cons.mp hn with h | h
      · rw [h]; exact h3
      · exact h4.keyed n h

theorem tailPut_of_not_mem (r : Rec) (t : List Rec) (h : ∀ s ∈ t, s.id ≠ r.id) :
    tailPut r t = t ++ [r] := by
  induction t with
  | nil => rfl
  | cons s rest ih =>
    have hs : s.id ≠ r.id := h s (by simp)
    simp only [tailPut, if_neg hs, List.cons_append, List.cons.injEq, true_and]
    exact ih fun x hx => h x (by simp [hx])

theorem mem_tailPut (r s : Rec) (t : List Rec) (h : s ∈ tailPut r t) : s = r ∨ s ∈ t := by
  induction t with
  | nil => simpa [tailPut] using h
  | cons x rest ih =>
    by_cases hx : x.id = r.id
    · simp only [tailPut, if_pos hx] at h
      rcases List.mem_cons.mp h with h | h
      · exact Or.inl h
      · exact Or.inr (by simp [h])
    · simp only [tailPut, if_neg hx] at h
      rcases List.mem_cons.mp h with h | h
      · exact Or.inr (by simp [h])
      · rcases ih h with h | h
        · exact Or.inl h
        · exact Or.inr (by simp [h])

theorem tailPut_ne_nil (r : Rec) (t : List Rec) : tailPut r t ≠ [] := by
  cases t with
  | nil => simp [tailPut]
  | cons s rest =>
    by_cases hx : s.id = r.id <;> simp [tailPut, hx]

theorem mem_tailRemove (i : Nat) (s : Rec) (t : List Rec) (h : s ∈ tailRemove i t) :
    s ∈ t := by
  induction t with
  | nil => simp [tailRemove] at h
  | cons x rest ih =>
    by_cases hx : x.id = i
    · simp only [tailRemove, if_pos hx] at h
      exact List.mem_cons_of_mem _ h
    · simp only [tailRemove, if_neg hx] at h
      rcases List.mem_cons.mp h with h | h
      · simp [h]
      · exact List.mem_cons_of_mem _ (ih h)

theorem tailRemove_filter (i : Nat) (t : List Rec) (h : (t.map Rec.id).Nodup) :
    tailRemove i t = t.filter (fun s => s.id != i) := by
  induction t with
  | nil => rfl
  | cons x rest ih =>
    rw [List.map_cons, List.nodup_cons] at h
    by_cases hx : x.id = i
    · rw [show tailRemove i (x :: rest) = rest from by simp [tailRemove, hx]]
      have : rest.filter (fun s => s.id != i) = rest := by
        rw [List.filter_eq_self]
        intro s hs
        have : s.id ≠ i := by
          intro hsi
          exact h.1 (hx ▸ hsi ▸ List.mem_map_of_mem Rec.id hs)
        simpa using this
      simp [List.filter_cons, hx, this]
    · rw [show tailRemove i (x :: rest) = x :: tailRemove i rest from by
        simp [tailRemove, hx]]
      simp [List.filter_cons, hx, ih h.2]

theorem keys_treePut (p : PropertyInfo) (r : Rec) (st : TreeState) :
    (treePut p r st).map Prod.fst =
      if PropertyInfo.get p r ∈ st.map Prod.fst then st.map Prod.fst
      else st.map Prod.fst ++ [PropertyInfo.get p r] := by
  induction st with
  | nil => simp [treePut]
  | cons node rest ih =>
    obtain ⟨k, t⟩ := node
    by_cases hk : k = PropertyInfo.get p r
    · simp [treePut, hk]
    · have hne : PropertyInfo.get p r ≠ k := fun h => hk h.symm
      simp only [treePut, if_neg hk, List.map_cons, List.mem_cons, hne, false_or, ih]
      by_cases hmem : PropertyInfo.get p r ∈ rest.map Prod.fst <;> simp [hmem]

theorem treeInv_treePut (p : PropertyInfo) (r : Rec) (st : TreeState)
    (h : TreeInv p st) : TreeInv p (treePut p r st) := by
  induction st with
  | nil =>
    rw [show treePut p r [] = [(PropertyInfo.get p r, [r])] from rfl, treeInv_cons_iff]
    exact ⟨by simp, by simp, by simp, treeInv_nil p⟩
  | cons node rest ih =>
    obtain ⟨k, t⟩ := node
    rw [treeInv_cons_iff] at h
    obtain ⟨h1, h2, h3, h4⟩ := h
    by_cases hk : k = PropertyInfo.get p r
    · rw [show treePut p r ((k, t) :: rest) = (k, tailPut r t) :: rest from by
        simp [treePut, hk], treeInv_cons_iff]
      refine ⟨h1, tailPut_ne_nil r t, ?_, h4⟩
      intro s hs
      rcases mem_tailPut r s t hs with h | h
      · rw [h, ← hk]
      · exact h3 s h
    · rw [show treePut p r ((k, t) :: rest) = (k, t) :: treePut p r rest from by
        simp [treePut, hk], treeInv_cons_iff]
      refine ⟨?_, h2, h3, ih h4⟩
      rw [keys_treePut]
      by_cases hmem : PropertyInfo.get p r ∈ rest.map Prod.fst
      · simpa [hmem] using h1
      · simp only [if_neg hmem, List.mem_append, List.mem_singleton]
        rintro (h | h)
        · exact h1 h
        · exact hk h

theorem treeContents_treePut (p : PropertyInfo) (r : Rec) (st : TreeState)
    (h : ∀ s ∈ treeContents st, s.id ≠ r.id) :
    (treeContents (treePut p r st)).Perm (r :: treeContents st) := by
  induction st with
  | nil => simp [treePut, treeContents]
  | cons node rest ih =>
    obtain ⟨k, t⟩ := node
    rw [treeContents_cons] at h
    by_cases hk : k = PropertyInfo.get p r
    · rw [show treePut p r ((k, t) :: rest) = (k, tailPut r t) :: rest from by
        simp [treePut, hk], treeContents_cons,
        tailPut_of_not_mem r t fun s hs => h s (List.mem_append_left _ hs),
        treeContents_cons, List.append_assoc, List.singleton_append]
      exact List.perm_middle
    · rw [show treePut p r ((k, t) :: rest) = (k, t) :: treePut p r rest from by
        simp [treePut, hk], treeContents_cons, treeContents_cons]
      exact ((ih fun s hs => h s (List.mem_append_right _ hs)).append_left t).trans
        List.perm_middle

theorem keys_treeRemove_sublist (p : PropertyInfo) (o : Rec) (st : TreeState) :
    ((treeRemove p o st).map Prod.fst).Sublist (st.map Prod.fst) := by
  induction st with
  | nil => simp [treeRemove]
  | cons node rest ih =>
    obtain ⟨k, t⟩ := node
    by_cases hk : k = PropertyInfo.get p o
    · by_cases ht : tailRemove o.id t = []
      · rw [show treeRemove p o ((k, t) :: rest) = rest from by simp [treeRemove, hk, ht]]
        simp
      · rw [show treeRemove p o ((k, t) :: rest) = (k, tailRemove o.id t) :: rest from by
          simp [treeRemove, hk, ht]]
        simp
    · rw [show treeRemove p o ((k, t) :: rest) = (k, t) :: treeRemove p o rest from by
        simp [treeRemove, hk]]
      simpa using ih.cons₂ k

theorem treeInv_treeRemove (p : PropertyInfo) (o : Rec) (st : TreeState)
    (h : TreeInv p st) : TreeInv p (treeRemove p o st) := by
  induction st with
  | nil => exact h
  | cons node rest ih =>
    obtain ⟨k, t⟩ := node
    rw [treeInv_cons_iff] at h
    obtain ⟨h1, h2, h3, h4⟩ := h
    by_cases hk : k = PropertyInfo.get p o
    · by_cases ht : tailRemove o.id t = []
      · rw [show treeRemove p o ((k, t) :: rest) = rest from by simp [treeRemove, hk, ht]]
        exact h4
      · rw [show treeRemove p o ((k, t) :: rest) = (k, tailRemove o.id t) :: rest from by
          simp [treeRemove, hk, ht], treeInv_cons_iff]
        exact ⟨h1, ht, fun s hs => h3 s (mem_tailRemove o.id s t hs), h4⟩
    · rw [show treeRemove p o ((k, t) :: rest) = (k, t) :: treeRemove p o rest from by
        simp [treeRemove, hk], treeInv_cons_iff]
      refine ⟨fun hmem => h1 ?_, h2, h3, ih h4⟩
      exact (keys_treeRemove_sublist p o rest).mem hmem

theorem treeContents_treeRemove (p : PropertyInfo) (o : Rec) (st : TreeState)
    (hinv : TreeInv p st)
    (hnodup : ((treeContents st).map Rec.id).Nodup)
    (hsame : ∀ s ∈ treeContents st, s.id = o.id →
      PropertyInfo.get p s = PropertyInfo.get p o) :
    treeContents (treeRemove p o st) = (treeContents st).filter (fun s => s.id != o.id) := by
  induction st with
  | nil => rfl
  | cons node rest ih =>
    obtain ⟨k, t⟩ := node
    rw [treeInv_cons_iff] at hinv
    obtain ⟨h1, h2, h3, h4⟩ := hinv
    rw [treeContents_cons] at hnodup hsame
    rw [List.map_append] at hnodup
    have hnt : (t.map Rec.id).Nodup := (List.nodup_append.mp hnodup).1
    have hnr : ((treeContents rest).map Rec.id).Nodup := (List.nodup_append.mp hnodup).2.1
    rw [treeContents_cons, List.filter_append]
    by_cases hk : k = PropertyInfo.get p o
    · have hrest : (treeContents rest).filter (fun s => s.id != o.id) = treeContents rest := by
        rw [List.filter_eq_self]
        intro s hs
        have : s.id ≠ o.id := by
          intro hsi
          have hkey := hsame s (List.mem_append_right _ hs) hsi
          obtain ⟨n, hn, hsn⟩ := List.mem_flatten.mp hs
          obtain ⟨m, hm, rfl⟩ := List.mem_map.mp hn
          have := h4.keyed m hm s hsn
          rw [this] at hkey
          apply h1
          rw [hk, ← hkey]
          exact List.mem_map_of_mem Prod.fst hm
        simpa using this
      have htail := tailRemove_filter o.id t hnt
      by_cases ht : tailRemove o.id t = []
      · rw [show treeRemove p o ((k, t) :: rest) = rest from by simp [treeRemove, hk, ht],
          ← htail, ht, hrest, List.nil_append]
      · rw [show treeRemove p o ((k, t) :: rest) = (k, tailRemove o.id t) :: rest from by
          simp [treeRemove, hk, ht], treeContents_cons, htail, hrest]
    · have htail : t.filter (fun s => s.id != o.id) = t := by
        rw [List.filter_eq_self]
        intro s hs
        have : s.id ≠ o.id := by
          intro hsi
          have hkey := hsame s (List.mem_append_left _ hs) hsi
          rw [h3 s hs] at hkey
          exact hk hkey
        simpa using this
      rw [show treeRemove p o ((k, t) :: rest) = (k, t) :: treeRemove p o rest from by
        simp [treeRemove, hk], treeContents_cons, htail,
        ih h4 hnr fun s hs hsi => hsame s (List.mem_append_right _ hs) hsi]

theorem treeLookup_eq_filter (p : PropertyInfo) (st : TreeState) (v : Nat)
    (hinv : TreeInv p st) :
    treeLookup st v = (treeContents st).filter (fun s => PropertyInfo.get p s == v) := by
  induction st with
  | nil => rfl
  | cons node rest ih =>
    obtain ⟨k, t⟩ := node
    rw [treeInv_cons_iff] at hinv
    obtain ⟨h1, h2, h3, h4⟩ := hinv
    rw [treeContents_cons, List.filter_append]
    by_cases hk : k = v
    · have htail : t.filter (fun s => PropertyInfo.get p s == v) = t := by
        rw [List.filter_eq_self]
        intro s hs
        simp [h3 s hs, hk]
      have hrest : (treeContents rest).filter (fun s => PropertyInfo.get p s == v) = [] := by
        rw [List.filter_eq_nil_iff]
        intro s hs
        obtain ⟨n, hn, hsn⟩ := List.mem_flatten.mp hs
        obtain ⟨m, hm, rfl⟩ := List.mem_map.mp hn
        rw [h4.keyed m hm s hsn]
        intro hmv
        rw [hk] at h1
        have hmemv : m.1 = v := by simpa using hmv
        exact h1 (hmemv ▸ List.mem_map_of_mem Prod.fst hm)
      rw [show treeLookup ((k, t) :: rest) v = t from by simp [treeLookup, List.find?, hk],
        htail, hrest, List.append_nil]
    · have htail : t.filter (fun s => PropertyInfo.get p s == v) = [] := by
        rw [List.filter_eq_nil_iff]
        intro s hs
        rw [h3 s hs]
        simpa using hk
      rw [show treeLookup ((k, t) :: rest) v = treeLookup rest v from by
        have hb : (k == v) = false := by simpa using hk
        simp [treeLookup, List.find?, hb], htail, List.nil_append]
      exact ih h4

theorem head?_filter_eq_find? (p : Rec → Bool) (l : List Rec) :
    (l.filter p).head? = l.find? p := by
  induction l with
  | nil => rfl
  | cons x rest ih =>
    by_cases hx : p x = true
    · simp [List.filter_cons, List.find?, hx]
    · rw [Bool.not_eq_true] at hx
      simp [List.filter_cons, List.find?, hx, ih]

theorem find?_id_of_perm (l recs : List Rec) (hperm : l.Perm recs)
    (hnodup : (recs.map Rec.id).Nodup) (k : Nat) :
    l.find? (fun r => r.id == k) = recs.find? (fun r => r.id == k) := by
  cases h : recs.find? (fun r => r.id == k) with
  | none =>
    rw [List.find?_eq_none] at h ⊢
    exact fun x hx => h x (hperm.mem_iff.mp hx)
  | some u =>
    have hu : u ∈ recs := List.mem_of_find?_eq_some h
    have huk := List.find?_some h
    cases hl : l.find? (fun r => r.id == k) with
    | none =>
      rw [List.find?_eq_none] at hl
      exact absurd huk (hl u (hperm.mem_iff.mpr hu))
    | some w =>
      have hw : w ∈ recs := hperm.mem_iff.mp (List.mem_of_find?_eq_some hl)
      have hwk := List.find?_some hl
      have : w = u := by
        refine List.inj_on_of_nodup_map hnodup hw hu ?_
        simp only [beq_iff_eq] at huk hwk
        rw [huk, hwk]
      rw [this]

theorem chooseFind_mem (p : FindPlan) (ps : List FindPlan) :
    chooseFind p ps ∈ p :: ps := by
  induction ps generalizing p with
  | nil => simp [chooseFind]
  | cons q qs ih =>
    have step : chooseFind p (q :: qs) = chooseFind (if q.cost < p.cost then q else p) qs := rfl
    rcases List.mem_cons.mp (ih (if q.cost < p.cost then q else p)) with h | h
    · rw [step, h]
      by_cases hc : q.cost < p.cost
      · simp [hc]
      · simp [hc]
    · rw [step]
      exact List.mem_cons_of_mem _ (List.mem_cons_of_mem _ h)

theorem chooseSelect_mem (p : SelectPlan) (ps : List SelectPlan) :
    chooseSelect p ps ∈ p :: ps := by
  induction ps generalizing p with
  | nil => simp [chooseSelect]
  | cons q qs ih =>
    have step : chooseSelect p (q :: qs) = chooseSelect (if q.cost < p.cost then q else p) qs := rfl
    rcases List.mem_cons.mp (ih (if q.cost < p.cost then q else p)) with h | h
    · rw [step, h]
      by_cases hc : q.cost < p.cost
      · simp [hc]
      · simp [hc]
    · rw [step]
      exact List.mem_cons_of_mem _ (List.mem_cons_of_mem _ h)

theorem treePlanFind_result (p : PropertyInfo) (st : TreeState) (k : Nat)
    (recs : List Rec) (hinv : TreeInv p st) (hperm : (treeContents st).Perm recs)
    (hnodup : (recs.map Rec.id).Nodup) :
    (treePlanFind p st k).result = specFind recs k := by
  unfold treePlanFind specFind
  by_cases hp : p = PropertyInfo.pid
  · subst hp
    rw [if_pos rfl]
    rw [treeLookup_eq_filter PropertyInfo.pid st k hinv,
      show (fun s => PropertyInfo.get PropertyInfo.pid s == k) = (fun r => r.id == k) from rfl,
      head?_filter_eq_find?]
    exact find?_id_of_perm _ _ hperm hnodup k
  · rw [if_neg hp]
    exact find?_id_of_perm _ _ hperm hnodup k

theorem altFind_eq (e : Engine) (recs : List Rec) (h : EngineInv e recs) (k : Nat) :
    altFind e k = specFind recs k := by
  obtain ⟨hne, hnodup, hslots⟩ := h
  unfold altFind
  cases hm : e.slots.map (fun s => treePlanFind s.1 s.2 k) with
  | nil => exact absurd (List.map_eq_nil_iff.mp hm) hne
  | cons p ps =>
    have hmem : chooseFind p ps ∈ e.slots.map (fun s => treePlanFind s.1 s.2 k) := by
      rw [hm]; exact chooseFind_mem p ps
    obtain ⟨s, hs, heq⟩ := List.mem_map.mp hmem
    show (chooseFind p ps).result = specFind recs k
    rw [← heq]
    exact treePlanFind_result s.1 s.2 k recs (hslots s hs).1 (hslots s hs).2 hnodup

theorem find_eq_specFind (e : Engine) (recs : List Rec) (h : EngineInv e recs) (r : Rec) :
    e.find_ (some (Sum.inr r)) = specFind recs r.id := by
  show maybeClone (altFind e r.id) = specFind recs r.id
  exact altFind_eq e recs h r.id

theorem specStep_nodup (recs : List Rec) (op : Op) (h : (recs.map Rec.id).Nodup) :
    ((specStep recs op).map Rec.id).Nodup := by
  have hsub : ∀ r : Rec,
      (((recs.filter (fun s => s.id != r.id)).map Rec.id)).Sublist (recs.map Rec.id) :=
    fun r => (List.filter_sublist recs).map Rec.id
  cases op with
  | put r =>
    rw [show specStep recs (.put r) = r :: recs.filter (fun s => s.id != r.id) from rfl,
      List.map_cons, List.nodup_cons]
    refine ⟨?_, h.sublist (hsub r)⟩
    intro hmem
    obtain ⟨s, hs, hsid⟩ := List.mem_map.mp hmem
    have := List.of_mem_filter hs
    rw [hsid] at this
    simp at this
  | del r =>
    exact h.sublist (hsub r)

theorem filter_id_eq_self (recs : List Rec) (k : Nat) (habs : ∀ x ∈ recs, x.id ≠ k) :
    recs.filter (fun s => s.id != k) = recs := by
  rw [List.filter_eq_self]
  intro s hs
  simpa using habs s hs

theorem specFind_none_absent (recs : List Rec) (k : Nat) (h : specFind recs k = none) :
    ∀ x ∈ recs, x.id ≠ k := by
  intro x hx
  have := List.find?_eq_none.mp h x hx
  simpa using this

theorem engineInv_put (e : Engine) (recs : List Rec) (r : Rec) (h : EngineInv e recs) :
    EngineInv (e.put_ r).2 (specStep recs (.put r)) := by
  obtain ⟨hne, hnodup, hslots⟩ := h
  have hfind := find_eq_specFind e recs ⟨hne, hnodup, hslots⟩ r
  cases hsf : specFind recs r.id with
  | none =>
    have habs := specFind_none_absent recs r.id hsf
    have hput : (e.put_ r).2 =
        { slots := e.slots.map (fun s => (s.1, treePut s.1 r s.2)) } := by
      simp only [Engine.put_, hfind, hsf]
    rw [hput, show specStep recs (.put r) = r :: recs.filter (fun s => s.id != r.id) from rfl,
      filter_id_eq_self recs r.id habs]
    refine ⟨by simpa using hne, ?_, ?_⟩
    · have := specStep_nodup recs (.put r) hnodup
      rw [show specStep recs (.put r) = r :: recs.filter (fun s => s.id != r.id) from rfl,
        filter_id_eq_self recs r.id habs] at this
      exact this
    · intro s' hs'
      obtain ⟨s, hs, rfl⟩ := List.mem_map.mp hs'
      obtain ⟨hi, hp⟩ := hslots s hs
      refine ⟨treeInv_treePut s.1 r s.2 hi, ?_⟩
      have hnotin : ∀ x ∈ treeContents s.2, x.id ≠ r.id :=
        fun x hx => habs x (hp.mem_iff.mp hx)
      exact (treeContents_treePut s.1 r s.2 hnotin).trans (hp.cons r)
  | some o =>
    have ho : o ∈ recs := List.mem_of_find?_eq_some hsf
    have hoid : o.id = r.id := by simpa using List.find?_some hsf
    have hput : (e.put_ r).2 =
        { slots := (e.slots.map (fun s => (s.1, treeRemove s.1 o s.2))).map
            (fun s => (s.1, treePut s.1 r s.2)) } := by
      simp only [Engine.put_, hfind, hsf]
    rw [hput, show specStep recs (.put r) = r :: recs.filter (fun s => s.id != r.id) from rfl]
    refine ⟨by simpa using hne, ?_, ?_⟩
    · have := specStep_nodup recs (.put r) hnodup
      rwa [show specStep recs (.put r) = r :: recs.filter (fun s => s.id != r.id) from rfl]
        at this
    · intro s' hs'
      rw [List.map_map] at hs'
      obtain ⟨s, hs, rfl⟩ := List.mem_map.mp hs'
      obtain ⟨hi, hp⟩ := hslots s hs
      have hcn : ((treeContents s.2).map Rec.id).Nodup :=
        ((hp.map Rec.id).nodup_iff).mpr hnodup
      have hsame : ∀ x ∈ treeContents s.2, x.id = o.id →
          PropertyInfo.get s.1 x = PropertyInfo.get s.1 o := by
        intro x hx hxo
        have : x = o :=
          List.inj_on_of_nodup_map hnodup (hp.mem_iff.mp hx) ho hxo
        rw [this]
      have hrem := treeContents_treeRemove s.1 o s.2 hi hcn hsame
      have hremperm : (treeContents (treeRemove s.1 o s.2)).Perm
          (recs.filter (fun x => x.id != o.id)) := by
        rw [hrem]
        exact hp.filter _
      have hremnotin : ∀ x ∈ treeContents (treeRemove s.1 o s.2), x.id ≠ r.id := by
        intro x hx
        have hmemf : x ∈ recs.filter (fun y => y.id != o.id) := hremperm.mem_iff.mp hx
        have hxo := List.of_mem_filter hmemf
        rw [hoid] at hxo
        simpa using hxo
      refine ⟨treeInv_treePut s.1 r _ (treeInv_treeRemove s.1 o s.2 hi), ?_⟩
      show (treeContents (treePut s.1 r (treeRemove s.1 o s.2))).Perm
        (r :: recs.filter (fun x => x.id != r.id))
      refine (treeContents_treePut s.1 r _ hremnotin).trans ?_
      rw [← hoid]
      exact hremperm.cons r

theorem engineInv_del (e : Engine) (recs : List Rec) (r : Rec) (h : EngineInv e recs) :
    EngineInv (e.remove_ (some r)).2 (specStep recs (.del r)) := by
  obtain ⟨hne, hnodup, hslots⟩ := h
  have hfind := find_eq_specFind e recs ⟨hne, hnodup, hslots⟩ r
  cases hsf : specFind recs r.id with
  | none =>
    have habs := specFind_none_absent recs r.id hsf
    have hrem : (e.remove_ (some r)).2 = e := by
      simp only [Engine.remove_, hfind, hsf]
    rw [hrem, show specStep recs (.del r) = recs.filter (fun s => s.id != r.id) from rfl,
      filter_id_eq_self recs r.id habs]
    exact ⟨hne, hnodup, hslots⟩
  | some o =>
    have ho : o ∈ recs := List.mem_of_find?_eq_some hsf
    have hoid : o.id = r.id := by simpa using List.find?_some hsf
    have hrem2 : (e.remove_ (some r)).2 =
        { slots := e.slots.map (fun s => (s.1, treeRemove s.1 o s.2)) } := by
      simp only [Engine.remove_, hfind, hsf]
    rw [hrem2, show specStep recs (.del r) = recs.filter (fun s => s.id != r.id) from rfl]
    refine ⟨by simpa using hne, specStep_nodup recs (.del r) hnodup, ?_⟩
    intro s' hs'
    obtain ⟨s, hs, rfl⟩ := List.mem_map.mp hs'
    obtain ⟨hi, hp⟩ := hslots s hs
    have hcn : ((treeContents s.2).map Rec.id).Nodup :=
      ((hp.map Rec.id).nodup_iff).mpr hnodup
    have hsame : ∀ x ∈ treeContents s.2, x.id = o.id →
        PropertyInfo.get s.1 x = PropertyInfo.get s.1 o := by
      intro x hx hxo
      have : x = o :=
        List.inj_on_of_nodup_map hnodup (hp.mem_iff.mp hx) ho hxo
      rw [this]
    refine ⟨treeInv_treeRemove s.1 o s.2 hi, ?_⟩
    rw [treeContents_treeRemove s.1 o s.2 hi hcn hsame, ← hoid]
    exact hp.filter _

theorem engineInv_applyOps_aux (ops : List Op) (e : Engine) (recs : List Rec)
    (h : EngineInv e recs) : EngineInv (applyOps e ops) (ops.foldl specStep recs) := by
  induction ops generalizing e recs with
  | nil => exact h
  | cons op rest ih =>
    rw [show applyOps e (op :: rest) = applyOps (stepOp e op) rest from rfl,
      List.foldl_cons]
    apply ih
    cases op with
    | put r => exact engineInv_put e recs r h
    | del r => exact engineInv_del e recs r h

theorem engineInv_mk (extras : List PropertyInfo) : EngineInv (mkEngine extras) [] := by
  refine ⟨by simp [mkEngine], by simp, ?_⟩
  intro s hs
  have hs2 : s.2 = [] := by
    rw [mkEngine] at hs
    rcases List.mem_cons.mp hs with h | h
    · rw [h]
    · obtain ⟨p, _, rfl⟩ := List.mem_map.mp h
      rfl
  rw [hs2]
  exact ⟨treeInv_nil s.1, List.Perm.refl []⟩

theorem engineInv_reachable (extras : List PropertyInfo) (ops : List Op) :
    EngineInv (applyOps (mkEngine extras) ops) (specRecs ops) :=
  engineInv_applyOps_aux ops _ _ (engineInv_mk extras)

/-! ## Correctness of plan selection and execution -/

theorem firstEqTop_sound (p : PropertyInfo) (as : List Predicate) (v : Nat) (r : Rec)
    (h : firstEqTop p as = some v) (hall : evalAll as r = true) :
    PropertyInfo.get p r = v := by
  induction as with
  | nil => simp [firstEqTop] at h
  | cons a rest ih =>
    rw [show evalAll (a :: rest) r = (evalPred a r && evalAll rest r) from rfl,
      Bool.and_eq_true] at hall
    cases a with
    | eq q w =>
      by_cases hq : q = p
      · rw [show firstEqTop p (.eq q w :: rest) = some w from by simp [firstEqTop, hq]] at h
        obtain rfl : w = v := by simpa using h
        have := hall.1
        rw [show evalPred (.eq q w) r = (PropertyInfo.get q r == w) from rfl, beq_iff_eq] at this
        rw [← hq, this]
      · rw [show firstEqTop p (.eq q w :: rest) = firstEqTop p rest from by
          simp [firstEqTop, hq]] at h
        exact ih h hall.2
    | gt q w =>
      rw [show firstEqTop p (.gt q w :: rest) = firstEqTop p rest from rfl] at h
      exact ih h hall.2
    | and args =>
      rw [show firstEqTop p (.and args :: rest) = firstEqTop p rest from rfl] at h
      exact ih h hall.2
    | or args =>
      rw [show firstEqTop p (.or args :: rest) = firstEqTop p rest from rfl] at h
      exact ih h hall.2

theorem extractEq_sound (p : PropertyInfo) (P : Predicate) (v : Nat) (r : Rec)
    (h : extractEq p P = some v) (heval : evalPred P r = true) :
    PropertyInfo.get p r = v := by
  cases P with
  | eq q w =>
    by_cases hq : q = p
    · rw [show extractEq p (.eq q w) = some w from by simp [extractEq, hq]] at h
      obtain rfl : w = v := by simpa using h
      rw [show evalPred (.eq q w) r = (PropertyInfo.get q r == w) from rfl, beq_iff_eq] at heval
      rw [← hq, heval]
    · rw [show extractEq p (.eq q w) = none from by simp [extractEq, hq]] at h
      exact absurd h (by simp)
  | gt q w => simp [extractEq] at h
  | and args =>
    exact firstEqTop_sound p args v r h heval
  | or args => simp [extractEq] at h

theorem treePlanSelect_fields (p : PropertyInfo) (st : TreeState) (skip limit : Nat)
    (order : Option PropertyInfo) (pred : Option Predicate) :
    (treePlanSelect p st skip limit order pred).skip = skip
    ∧ (treePlanSelect p st skip limit order pred).limit = limit
    ∧ (treePlanSelect p st skip limit order pred).order = order
    ∧ (treePlanSelect p st skip limit order pred).pred = pred := by
  unfold treePlanSelect
  cases pred.bind (extractEq p) <;> simp

theorem altPlanSelect_cases (e : Engine) (skip limit : Nat)
    (order : Option PropertyInfo) (pred : Option Predicate) :
    altPlanSelect e skip limit order pred = emptySelectPlan skip limit order pred
    ∨ ∃ s ∈ e.slots,
        altPlanSelect e skip limit order pred = treePlanSelect s.1 s.2 skip limit order pred := by
  unfold altPlanSelect
  cases hm : e.slots.map (fun s => treePlanSelect s.1 s.2 skip limit order pred) with
  | nil => exact Or.inl rfl
  | cons p ps =>
    right
    have hmem : chooseSelect p ps ∈
        e.slots.map (fun s => treePlanSelect s.1 s.2 skip limit order pred) := by
      rw [hm]; exact chooseSelect_mem p ps
    obtain ⟨s, hs, heq⟩ := List.mem_map.mp hmem
    exact ⟨s, hs, heq.symm⟩

theorem altPlanSelect_fields (e : Engine) (skip limit : Nat)
    (order : Option PropertyInfo) (pred : Option Predicate) :
    (altPlanSelect e skip limit order pred).skip = skip
    ∧ (altPlanSelect e skip limit order pred).limit = limit
    ∧ (altPlanSelect e skip limit order pred).order = order
    ∧ (altPlanSelect e skip limit order pred).pred = pred := by
  rcases altPlanSelect_cases e skip limit order pred with h | ⟨s, _, h⟩
  · rw [h]
    exact ⟨rfl, rfl, rfl, rfl⟩
  · rw [h]
    exact treePlanSelect_fields s.1 s.2 skip limit order pred

theorem treePlanSelect_scan_filter (p : PropertyInfo) (st : TreeState) (skip limit : Nat)
    (order : Option PropertyInfo) (pred : Option Predicate) (recs : List Rec)
    (hinv : TreeInv p st) (hperm : (treeContents st).Perm recs) :
    ((treePlanSelect p st skip limit order pred).scan.filter (evalOpt pred)).Perm
      (recs.filter (evalOpt pred)) := by
  unfold treePlanSelect
  cases hx : pred.bind (extractEq p) with
  | none =>
    exact hperm.filter _
  | some v =>
    obtain ⟨P, hP, hext⟩ := Option.bind_eq_some.mp hx
    show ((treeLookup st v).filter (evalOpt pred)).Perm (recs.filter (evalOpt pred))
    rw [treeLookup_eq_filter p st v hinv, List.filter_filter]
    have hcongr : ∀ a ∈ treeContents st,
        (evalOpt pred a && (PropertyInfo.get p a == v)) = evalOpt pred a := by
      intro a _
      cases he : evalOpt pred a with
      | false => simp
      | true =>
        rw [hP] at he
        rw [show evalOpt (some P) a = evalPred P a from rfl] at he
        simp [extractEq_sound p P v a hext he]
    rw [List.filter_congr hcongr]
    exact hperm.filter _

theorem treePlanSelect_scan_length (p : PropertyInfo) (st : TreeState) (skip limit : Nat)
    (order : Option PropertyInfo) (pred : Option Predicate) (recs : List Rec)
    (hinv : TreeInv p st) (hperm : (treeContents st).Perm recs) :
    (treePlanSelect p st skip limit order pred).scan.length ≤ recs.length := by
  unfold treePlanSelect
  cases hx : pred.bind (extractEq p) with
  | none =>
    show (treeContents st).length ≤ recs.length
    rw [hperm.length_eq]
  | some v =>
    show (treeLookup st v).length ≤ recs.length
    rw [treeLookup_eq_filter p st v hinv, ← hperm.length_eq]
    exact List.length_filter_le _ _

theorem altPlanSelect_mem (e : Engine) (hne : e.slots ≠ []) (skip limit : Nat)
    (order : Option PropertyInfo) (pred : Option Predicate) :
    ∃ s ∈ e.slots,
      altPlanSelect e skip limit order pred = treePlanSelect s.1 s.2 skip limit order pred := by
  unfold altPlanSelect
  cases hm : e.slots.map (fun s => treePlanSelect s.1 s.2 skip limit order pred) with
  | nil => exact absurd (List.map_eq_nil_iff.mp hm) hne
  | cons p ps =>
    have hmem : chooseSelect p ps ∈
        e.slots.map (fun s => treePlanSelect s.1 s.2 skip limit order pred) := by
      rw [hm]; exact chooseSelect_mem p ps
    obtain ⟨s, hs, heq⟩ := List.mem_map.mp hmem
    exact ⟨s, hs, heq.symm⟩

theorem applyOrder_none (l : List Rec) : applyOrder none l = l := rfl

/-- Executing the cheapest AltIndex plan with no skip, an unbounded limit
and no order yields exactly the stored records matching the predicate (up
to order) — whichever alternative the planner picked. -/
theorem execAlt_perm (e : Engine) (recs : List Rec) (h : EngineInv e recs)
    (hlen : recs.length ≤ MAX_SAFE_INTEGER) (pred : Option Predicate) :
    (execPlan (altPlanSelect e 0 MAX_SAFE_INTEGER none pred)).Perm
      (recs.filter (evalOpt pred)) := by
  obtain ⟨hne, hnodup, hslots⟩ := h
  obtain ⟨s, hs, hplan⟩ := altPlanSelect_mem e hne 0 MAX_SAFE_INTEGER none pred
  rw [hplan, execPlan]
  obtain ⟨hskip, hlimit, horder, hpred⟩ :=
    treePlanSelect_fields s.1 s.2 0 MAX_SAFE_INTEGER none pred
  rw [hskip, hlimit, horder, hpred, applyOrder_none, List.drop_zero]
  have hfil := treePlanSelect_scan_filter s.1 s.2 0 MAX_SAFE_INTEGER none pred recs
    (hslots s hs).1 (hslots s hs).2
  have hlen2 : ((treePlanSelect s.1 s.2 0 MAX_SAFE_INTEGER none pred).scan.filter
      (evalOpt pred)).length ≤ MAX_SAFE_INTEGER :=
    ((List.length_filter_le _ _).trans
      (treePlanSelect_scan_length s.1 s.2 0 MAX_SAFE_INTEGER none pred recs
        (hslots s hs).1 (hslots s hs).2)).trans hlen
  rw [List.take_of_length_le hlen2]
  exact hfil

theorem count_filter_eq (p : Rec → Bool) (l : List Rec) (r : Rec) :
    (l.filter p).count r = if p r then l.count r else 0 := by
  induction l with
  | nil => simp
  | cons x rest ih =>
    rw [List.filter_cons]
    by_cases hx : p x
    · rw [if_pos hx, List.count_cons, ih, List.count_cons]
      by_cases hxr : x = r
      · subst hxr
        simp [hx]
      · simp [hxr]
    · rw [if_neg hx, ih]
      by_cases hxr : x = r
      · subst hxr
        simp [List.count_cons, hx]
      · simp [List.count_cons, hxr]

theorem count_eq_ite_mem (l : List Rec) (r : Rec) (h : (l.map Rec.id).Nodup) :
    l.count r = if r ∈ l then 1 else 0 := by
  by_cases hm : r ∈ l
  · rw [if_pos hm]
    exact List.count_eq_one_of_mem (List.Nodup.of_map Rec.id h) hm
  · rw [if_neg hm]
    exact List.count_eq_zero_of_not_mem hm

/-- One Or sub-plan emits a stored matching record exactly once. -/
theorem execAlt_count (e : Engine) (recs : List Rec) (h : EngineInv e recs)
    (hlen : recs.length ≤ MAX_SAFE_INTEGER) (a : Predicate) (r : Rec) :
    (execPlan (altPlanSelect e 0 MAX_SAFE_INTEGER none (some a))).count r
      = if evalPred a r = true ∧ r ∈ recs then 1 else 0 := by
  rw [(execAlt_perm e recs h hlen (some a)).count_eq,
    count_filter_eq (evalOpt (some a)) recs r,
    count_eq_ite_mem recs r h.2.1]
  by_cases he : evalPred a r = true
  · by_cases hm : r ∈ recs
    · simp [evalOpt, he, hm]
    · simp [evalOpt, he, hm]
  · have : evalOpt (some a) r = false := by
      rw [show evalOpt (some a) r = evalPred a r from rfl]
      simpa using he
    simp [this, he]

theorem execAlt_mem (e : Engine) (recs : List Rec) (h : EngineInv e recs)
    (hlen : recs.length ≤ MAX_SAFE_INTEGER) (pred : Option Predicate) (r : Rec) :
    r ∈ execPlan (altPlanSelect e 0 MAX_SAFE_INTEGER none pred)
      ↔ evalOpt pred r = true ∧ r ∈ recs := by
  rw [(execAlt_perm e recs h hlen pred).mem_iff, List.mem_filter]
  exact ⟨fun x => ⟨x.2, x.1⟩, fun x => ⟨x.2, x.1⟩⟩

theorem specRecs_length_aux (ops : List Op) (recs : List Rec) :
    (ops.foldl specStep recs).length ≤ recs.length + ops.length := by
  induction ops generalizing recs with
  | nil => simp
  | cons op rest ih =>
    rw [List.foldl_cons]
    refine (ih (specStep recs op)).trans ?_
    have hstep : (specStep recs op).length ≤ recs.length + 1 := by
      cases op with
      | put r =>
        rw [show specStep recs (.put r) = r :: recs.filter (fun s => s.id != r.id) from rfl,
          List.length_cons]
        exact Nat.succ_le_succ (List.length_filter_le _ _)
      | del r =>
        exact (List.length_filter_le _ _).trans (Nat.le_succ _)
    simp only [List.length_cons]
    omega

theorem specRecs_length (ops : List Op) : (specRecs ops).length ≤ ops.length := by
  simpa using specRecs_length_aux ops []

theorem evalAny_iff (args : List Predicate) (r : Rec) :
    evalAny args r = true ↔ ∃ a ∈ args, evalPred a r = true := by
  induction args with
  | nil => simp [evalAny]
  | cons a rest ih =>
    rw [show evalAny (a :: rest) r = (evalPred a r || evalAny rest r) from rfl,
      Bool.or_eq_true, ih]
    simp

theorem select_or_eq (e : Engine) (sink : List Rec) (skip limit : Nat)
    (order : Option PropertyInfo) (P : Predicate) (args : List Predicate)
    (h : partialEval P = Predicate.or args) :
    Engine.select_ e sink skip limit order (some P)
      = sink ++ orPlanSelect (orPlanList e args) skip limit order := by
  simp [Engine.select_, h]

theorem execAlt_length (e : Engine) (recs : List Rec) (h : EngineInv e recs)
    (pred : Option Predicate) :
    (execPlan (altPlanSelect e 0 MAX_SAFE_INTEGER none pred)).length ≤ recs.length := by
  obtain ⟨hne, hnodup, hslots⟩ := h
  obtain ⟨s, hs, hplan⟩ := altPlanSelect_mem e hne 0 MAX_SAFE_INTEGER none pred
  rw [hplan, execPlan]
  obtain ⟨hskip, hlimit, horder, hpred⟩ :=
    treePlanSelect_fields s.1 s.2 0 MAX_SAFE_INTEGER none pred
  rw [hskip, hlimit, horder, hpred, applyOrder_none, List.drop_zero, List.length_take]
  refine (min_le_right _ _).trans ?_
  refine (List.length_filter_le _ _).trans ?_
  exact treePlanSelect_scan_length s.1 s.2 0 MAX_SAFE_INTEGER none pred recs
    (hslots s hs).1 (hslots s hs).2

theorem sum_le_length_mul (l : List Nat) (c : Nat) (h : ∀ x ∈ l, x ≤ c) :
    l.sum ≤ l.length * c := by
  induction l with
  | nil => simp
  | cons x rest ih =>
    rw [List.sum_cons, List.length_cons, Nat.succ_mul]
    have h1 : x ≤ c := h x (by simp)
    have h2 : rest.sum ≤ rest.length * c := ih fun y hy => h y (by simp [hy])
    omega

theorem orBuffer_length (e : Engine) (recs : List Rec) (hinv : EngineInv e recs)
    (args : List Predicate) :
    (((orPlanList e args).map execPlan).flatten).length ≤ args.length * recs.length := by
  rw [List.length_flatten]
  have hbound : ∀ x ∈ ((orPlanList e args).map execPlan).map List.length, x ≤ recs.length := by
    intro x hx
    obtain ⟨l, hl, rfl⟩ := List.mem_map.mp hx
    obtain ⟨pl, hpl, rfl⟩ := List.mem_map.mp hl
    obtain ⟨a, _, rfl⟩ := List.mem_map.mp hpl
    exact execAlt_length e recs hinv (some a)
  have := sum_le_length_mul (((orPlanList e args).map execPlan).map List.length)
    recs.length hbound
  simpa [orPlanList] using this

theorem orBuffer_mem (e : Engine) (recs : List Rec) (hinv : EngineInv e recs)
    (hlen : recs.length ≤ MAX_SAFE_INTEGER) (args : List Predicate) (r : Rec) :
    r ∈ ((orPlanList e args).map execPlan).flatten
      ↔ (evalAny args r = true ∧ r ∈ recs) := by
  rw [List.mem_flatten, evalAny_iff]
  constructor
  · rintro ⟨l, hl, hr⟩
    obtain ⟨pl, hpl, rfl⟩ := List.mem_map.mp hl
    obtain ⟨a, ha, rfl⟩ := List.mem_map.mp hpl
    have hm := (execAlt_mem e recs hinv hlen (some a) r).mp hr
    exact ⟨⟨a, ha, hm.1⟩, hm.2⟩
  · rintro ⟨⟨a, ha, he⟩, hmem⟩
    refine ⟨execPlan (altPlanSelect e 0 MAX_SAFE_INTEGER none (some a)), ?_, ?_⟩
    · exact List.mem_map_of_mem execPlan (List.mem_map_of_mem _ ha)
    · exact (execAlt_mem e recs hinv hlen (some a) r).mpr ⟨he, hmem⟩

theorem orBuffer_count (e : Engine) (recs : List Rec) (hinv : EngineInv e recs)
    (hlen : recs.length ≤ MAX_SAFE_INTEGER) (args : List Predicate) (r : Rec) :
    (((orPlanList e args).map execPlan).flatten).count r
      = if r ∈ recs then (args.filter (fun a => evalPred a r)).length else 0 := by
  induction args with
  | nil =>
    by_cases hm : r ∈ recs <;> simp [orPlanList, hm]
  | cons a rest ih =>
    rw [show orPlanList e (a :: rest)
        = altPlanSelect e 0 MAX_SAFE_INTEGER none (some a) :: orPlanList e rest from rfl,
      List.map_cons, List.flatten_cons, List.count_append,
      execAlt_count e recs hinv hlen a r, ih, List.filter_cons]
    by_cases hm : r ∈ recs
    · by_cases he : evalPred a r = true
      · simp [hm, he, Nat.add_comm]
      · simp [hm, he]
    · by_cases he : evalPred a r = true
      · simp [hm, he]
      · simp [hm, he]

theorem select_nonor_eq (e : Engine) (sink : List Rec) (skip limit : Nat)
    (order : Option PropertyInfo) (P Q : Predicate) (hpe : partialEval P = Q)
    (hq : ∀ args, Q ≠ Predicate.or args) :
    Engine.select_ e sink skip limit order (some P)
      = sink ++ execPlan (altPlanSelect e skip limit order (some Q)) := by
  cases Q with
  | or args => exact absurd rfl (hq args)
  | eq q w => simp [Engine.select_, hpe]
  | gt q w => simp [Engine.select_, hpe]
  | and args => simp [Engine.select_, hpe]

theorem select_mem_nonor (e : Engine) (recs : List Rec) (hinv : EngineInv e recs)
    (P Q : Predicate) (r : Rec) (hpe : partialEval P = Q)
    (hq : ∀ args, Q ≠ Predicate.or args)
    (hbound : recs.length ≤ MAX_SAFE_INTEGER) :
    (r ∈ Engine.select_ e [] 0 MAX_SAFE_INTEGER none (some P)
      ↔ r ∈ recs ∧ evalPred P r = true) := by
  rw [select_nonor_eq e [] 0 MAX_SAFE_INTEGER none P Q hpe hq, List.nil_append,
    execAlt_mem e recs hinv hbound (some Q) r]
  have hope := partialEval_sound P r
  rw [hpe] at hope
  rw [show evalOpt (some Q) r = evalPred Q r from rfl, hope]
  exact ⟨fun x => ⟨x.2, x.1⟩, fun x => ⟨x.2, x.1⟩⟩

theorem select_mem_master (e : Engine) (recs : List Rec) (hinv : EngineInv e recs)
    (P : Predicate) (r : Rec)
    (hbound : numDisjuncts (partialEval P) * recs.length ≤ MAX_SAFE_INTEGER) :
    (r ∈ Engine.select_ e [] 0 MAX_SAFE_INTEGER none (some P)
      ↔ r ∈ recs ∧ evalPred P r = true) := by
  cases hpe : partialEval P with
  | eq q w =>
    rw [hpe] at hbound
    rw [show numDisjuncts (.eq q w) = 1 from rfl, one_mul] at hbound
    exact select_mem_nonor e recs hinv P _ r hpe (fun args h => by simp at h) hbound
  | gt q w =>
    rw [hpe] at hbound
    rw [show numDisjuncts (.gt q w) = 1 from rfl, one_mul] at hbound
    exact select_mem_nonor e recs hinv P _ r hpe (fun args h => by simp at h) hbound
  | and args =>
    rw [hpe] at hbound
    rw [show numDisjuncts (.and args) = 1 from rfl, one_mul] at hbound
    exact select_mem_nonor e recs hinv P _ r hpe (fun args h => by simp at h) hbound
  | or args =>
    rw [hpe] at hbound
    rw [show numDisjuncts (.or args) = args.length from rfl] at hbound
    have hope := partialEval_sound P r
    rw [hpe, show evalPred (.or args) r = evalAny args r from rfl] at hope
    rw [select_or_eq e [] 0 MAX_SAFE_INTEGER none P args hpe, List.nil_append, orPlanSelect,
      applyOrder_none, List.drop_zero]
    by_cases hargs : args = []
    · subst hargs
      rw [← hope]
      simp [orPlanList, evalAny]
    · have hpos : 0 < args.length := List.length_pos.mpr hargs
      have hlen : recs.length ≤ MAX_SAFE_INTEGER :=
        le_trans (Nat.le_mul_of_pos_left recs.length hpos) hbound
      have hblen : (((orPlanList e args).map execPlan).flatten).length ≤ MAX_SAFE_INTEGER :=
        (orBuffer_length e recs hinv args).trans hbound
      rw [List.take_of_length_le hblen, orBuffer_mem e recs hinv hlen args r, hope]
      exact ⟨fun x => ⟨x.2, x.1⟩, fun x => ⟨x.2, x.1⟩⟩

theorem select_count_or (e : Engine) (recs : List Rec) (hinv : EngineInv e recs)
    (P : Predicate) (args : List Predicate) (r : Rec)
    (hpe : partialEval P = Predicate.or args)
    (hbound : args.length * recs.length ≤ MAX_SAFE_INTEGER) :
    (Engine.select_ e [] 0 MAX_SAFE_INTEGER none (some P)).count r
      = if r ∈ recs then (args.filter (fun a => evalPred a r)).length else 0 := by
  rw [select_or_eq e [] 0 MAX_SAFE_INTEGER none P args hpe, List.nil_append, orPlanSelect,
    applyOrder_none, List.drop_zero]
  by_cases hargs : args = []
  · subst hargs
    by_cases hm : r ∈ recs <;> simp [orPlanList, hm]
  · have hpos : 0 < args.length := List.length_pos.mpr hargs
    have hlen : recs.length ≤ MAX_SAFE_INTEGER :=
      le_trans (Nat.le_mul_of_pos_left recs.length hpos) hbound
    have hblen : (((orPlanList e args).map execPlan).flatten).length ≤ MAX_SAFE_INTEGER :=
      (orBuffer_length e recs hinv args).trans hbound
    rw [List.take_of_length_le hblen]
    exact orBuffer_count e recs hinv hlen args r

/-! ## Behaviour of an engine whose index state has been discarded -/

theorem applyOrder_nil (order : Option PropertyInfo) : applyOrder order [] = [] := by
  cases order <;> rfl

theorem slots_removeAll (e : Engine) (skip limit : Nat) (order : Option PropertyInfo)
    (pred : Option Predicate) :
    ∀ s ∈ (Engine.removeAll_ e skip limit order pred).slots, s.2 = ([] : TreeState) := by
  intro s hs
  obtain ⟨t, _, rfl⟩ := List.mem_map.mp hs
  rfl

theorem altFind_empty (e' : Engine) (hempty : ∀ s ∈ e'.slots, s.2 = ([] : TreeState))
    (k : Nat) : altFind e' k = none := by
  unfold altFind
  cases hm : e'.slots.map (fun s => treePlanFind s.1 s.2 k) with
  | nil => rfl
  | cons p ps =>
    have hmem : chooseFind p ps ∈ e'.slots.map (fun s => treePlanFind s.1 s.2 k) := by
      rw [hm]; exact chooseFind_mem p ps
    obtain ⟨s, hs, heq⟩ := List.mem_map.mp hmem
    show (chooseFind p ps).result = none
    rw [← heq, hempty s hs]
    unfold treePlanFind
    by_cases hp : s.1 = PropertyInfo.pid
    · rw [if_pos hp]
      rfl
    · rw [if_neg hp]
      rfl

theorem altPlanSelect_scan_empty (e' : Engine)
    (hempty : ∀ s ∈ e'.slots, s.2 = ([] : TreeState)) (skip limit : Nat)
    (order : Option PropertyInfo) (pred : Option Predicate) :
    (altPlanSelect e' skip limit order pred).scan = [] := by
  unfold altPlanSelect
  cases hm : e'.slots.map (fun s => treePlanSelect s.1 s.2 skip limit order pred) with
  | nil => rfl
  | cons p ps =>
    have hmem : chooseSelect p ps ∈
        e'.slots.map (fun s => treePlanSelect s.1 s.2 skip limit order pred) := by
      rw [hm]; exact chooseSelect_mem p ps
    obtain ⟨s, hs, heq⟩ := List.mem_map.mp hmem
    show (chooseSelect p ps).scan = []
    rw [← heq, hempty s hs]
    unfold treePlanSelect
    cases pred.bind (extractEq s.1) <;> rfl

theorem execPlan_scan_nil (pl : SelectPlan) (h : pl.scan = []) : execPlan pl = [] := by
  rw [execPlan, h]
  simp [applyOrder_nil]

theorem select_empty (e' : Engine) (hempty : ∀ s ∈ e'.slots, s.2 = ([] : TreeState))
    (sink : List Rec) (s l : Nat) (o : Option PropertyInfo) (pr : Option Predicate) :
    Engine.select_ e' sink s l o pr = sink := by
  have hexec : ∀ sk li or2 p2, execPlan (altPlanSelect e' sk li or2 p2) = [] :=
    fun sk li or2 p2 => execPlan_scan_nil _ (altPlanSelect_scan_empty e' hempty sk li or2 p2)
  cases pr with
  | none =>
    show sink ++ execPlan (altPlanSelect e' s l o none) = sink
    rw [hexec, List.append_nil]
  | some P =>
    cases hpe : partialEval P with
    | eq q w =>
      rw [select_nonor_eq e' sink s l o P _ hpe (fun args h => by simp at h), hexec,
        List.append_nil]
    | gt q w =>
      rw [select_nonor_eq e' sink s l o P _ hpe (fun args h => by simp at h), hexec,
        List.append_nil]
    | and args =>
      rw [select_nonor_eq e' sink s l o P _ hpe (fun args h => by simp at h), hexec,
        List.append_nil]
    | or args =>
      rw [select_or_eq e' sink s l o P args hpe]
      have hflat : ((orPlanList e' args).map execPlan).flatten = [] := by
        rw [List.flatten_eq_nil_iff]
        intro x hx
        obtain ⟨pl, hpl, rfl⟩ := List.mem_map.mp hx
        obtain ⟨a, _, rfl⟩ := List.mem_map.mp hpl
        exact hexec 0 MAX_SAFE_INTEGER none (some a)
      rw [orPlanSelect, hflat, applyOrder_nil]
      simp

/-! ## The claims -/

/-- C1: for every sequence of put and remove operations starting from the
empty engine state, a subsequent `find(key)` returns the most recently put
record whose primary key equals `key` (`specFind` over the specification
record set, which keeps the most recent put first and drops removed keys),
or absent if that key was never put or was removed afterwards — regardless
of how many alternative indexes have been registered (`extras` is
arbitrary). -/
theorem C1_find_index_consistency (extras : List PropertyInfo) (ops : List Op) (k : Nat) :
    Engine.find_ (applyOps (mkEngine extras) ops) (some (Sum.inl k))
      = specFind (specRecs ops) k := by
  show maybeClone (altFind (applyOps (mkEngine extras) ops) k) = specFind (specRecs ops) k
  exact altFind_eq _ _ (engineInv_reachable extras ops) k

/-- C2: `select` with predicate `P`, no order, skip `0` and the unbounded
limit delivers to the sink exactly the set of stored records satisfying
`P`, independently of which alternative index the planner chooses for
execution (the engine carries an arbitrary list of registered
alternatives, and the simplified predicate `partialEval P` is
semantics-preserving). -/
theorem C2_select_plan_transparency (extras : List PropertyInfo) (ops : List Op)
    (P : Predicate) (r : Rec)
    (hbound : numDisjuncts (partialEval P) * ops.length ≤ MAX_SAFE_INTEGER) :
    (r ∈ Engine.select_ (applyOps (mkEngine extras) ops) [] 0 MAX_SAFE_INTEGER none (some P)
      ↔ r ∈ specRecs ops ∧ evalPred P r = true) := by
  apply select_mem_master _ _ (engineInv_reachable extras ops)
  calc numDisjuncts (partialEval P) * (specRecs ops).length
      ≤ numDisjuncts (partialEval P) * ops.length :=
        Nat.mul_le_mul_left _ (specRecs_length ops)
    _ ≤ MAX_SAFE_INTEGER := hbound

theorem C2_select_plan_transparency_witness :
    (⟨1, 5⟩ : Rec) ∈ Engine.select_
        (applyOps (mkEngine [PropertyInfo.pa]) [Op.put ⟨1, 5⟩, Op.put ⟨2, 5⟩, Op.put ⟨3, 7⟩])
        [] 0 MAX_SAFE_INTEGER none (some (Predicate.eq PropertyInfo.pa 5))
      ↔ (⟨1, 5⟩ : Rec) ∈ specRecs [Op.put ⟨1, 5⟩, Op.put ⟨2, 5⟩, Op.put ⟨3, 7⟩]
        ∧ evalPred (Predicate.eq PropertyInfo.pa 5) ⟨1, 5⟩ = true :=
  C2_select_plan_transparency [PropertyInfo.pa] [Op.put ⟨1, 5⟩, Op.put ⟨2, 5⟩, Op.put ⟨3, 7⟩]
    (Predicate.eq PropertyInfo.pa 5) ⟨1, 5⟩ (by decide)

/-- C3: `removeAll(skip, limit, order, predicate)` unconditionally discards
the entire index state — its result does not depend on the filter
parameters at all — and afterwards every `select` delivers nothing into its
sink and `find` returns absent for every key. -/
theorem C3_removeAll_discards_everything (e : Engine) (skip limit : Nat)
    (order : Option PropertyInfo) (pred : Option Predicate) :
    Engine.removeAll_ e skip limit order pred = Engine.removeAll_ e 0 0 none none
    ∧ (∀ sink s l o pr,
        Engine.select_ (Engine.removeAll_ e skip limit order pred) sink s l o pr = sink)
    ∧ (∀ k, Engine.find_ (Engine.removeAll_ e skip limit order pred) (some (Sum.inl k))
        = none) := by
  refine ⟨rfl, ?_, ?_⟩
  · intro sink s l o pr
    exact select_empty _ (slots_removeAll e skip limit order pred) sink s l o pr
  · intro k
    show maybeClone (altFind (Engine.removeAll_ e skip limit order pred) k) = none
    exact altFind_empty _ (slots_removeAll e skip limit order pred) k

theorem zip_orPlanList (e : Engine) (args : List Predicate) :
    ∀ x ∈ args.zip (orPlanList e args),
      x.2 = altPlanSelect e 0 MAX_SAFE_INTEGER none (some x.1) := by
  induction args with
  | nil => simp
  | cons a rest ih =>
    intro x hx
    rw [show orPlanList e (a :: rest)
        = altPlanSelect e 0 MAX_SAFE_INTEGER none (some a) :: orPlanList e rest from rfl,
      List.zip_cons_cons] at hx
    rcases List.mem_cons.mp hx with h | h
    · rw [h]
    · exact ih x h

/-- C4: when the simplified predicate is a top-level disjunction
`Or(p1..pn)`, the engine builds exactly `n` independent sub-plans, one per
disjunct, each requested with skip `0`, the unbounded limit and no order
(never the caller's skip/limit/order), and the caller's skip, limit and
order are applied only after the union of the sub-plan results is
materialized. -/
theorem C4_or_decomposition (e : Engine) (sink : List Rec) (skip limit : Nat)
    (order : Option PropertyInfo) (P : Predicate) (args : List Predicate)
    (hpe : partialEval P = Predicate.or args) :
    (orPlanList e args).length = args.length
    ∧ (∀ x ∈ args.zip (orPlanList e args),
        x.2 = altPlanSelect e 0 MAX_SAFE_INTEGER none (some x.1))
    ∧ (∀ pl ∈ orPlanList e args,
        pl.skip = 0 ∧ pl.limit = MAX_SAFE_INTEGER ∧ pl.order = none)
    ∧ Engine.select_ e sink skip limit order (some P)
        = sink ++ ((applyOrder order
            (((orPlanList e args).map execPlan).flatten)).drop skip).take limit := by
  refine ⟨by simp [orPlanList], zip_orPlanList e args, ?_, ?_⟩
  · intro pl hpl
    obtain ⟨a, _, rfl⟩ := List.mem_map.mp hpl
    obtain ⟨h1, h2, h3, _⟩ := altPlanSelect_fields e 0 MAX_SAFE_INTEGER none (some a)
    exact ⟨h1, h2, h3⟩
  · rw [select_or_eq e sink skip limit order P args hpe]
    rfl

theorem C4_or_decomposition_witness :
    (orPlanList (mkEngine []) [Predicate.eq PropertyInfo.pid 1,
        Predicate.eq PropertyInfo.pa 5]).length
      = ([Predicate.eq PropertyInfo.pid 1, Predicate.eq PropertyInfo.pa 5] :
          List Predicate).length :=
  (C4_or_decomposition (mkEngine []) [] 3 4 (some PropertyInfo.pa)
    (Predicate.or [Predicate.eq PropertyInfo.pid 1, Predicate.eq PropertyInfo.pa 5])
    [Predicate.eq PropertyInfo.pid 1, Predicate.eq PropertyInfo.pa 5] rfl).1

/-- C5: with a top-level disjunction `Or(p1..pn)`, a stored record that
satisfies `k` of the `n` disjuncts is emitted `k` times in the result
stream — once per matching disjunct; duplicates are not suppressed. -/
theorem C5_or_duplicate_emission (extras : List PropertyInfo) (ops : List Op)
    (P : Predicate) (args : List Predicate) (r : Rec)
    (hpe : partialEval P = Predicate.or args)
    (hbound : args.length * ops.length ≤ MAX_SAFE_INTEGER) :
    (Engine.select_ (applyOps (mkEngine extras) ops) []
        0 MAX_SAFE_INTEGER none (some P)).count r
      = if r ∈ specRecs ops
          then (args.filter (fun a => evalPred a r)).length else 0 := by
  apply select_count_or _ _ (engineInv_reachable extras ops) P args r hpe
  calc args.length * (specRecs ops).length
      ≤ args.length * ops.length := Nat.mul_le_mul_left _ (specRecs_length ops)
    _ ≤ MAX_SAFE_INTEGER := hbound

theorem C5_or_duplicate_emission_witness :
    (Engine.select_ (applyOps (mkEngine [PropertyInfo.pa]) [Op.put ⟨1, 5⟩]) []
        0 MAX_SAFE_INTEGER none
        (some (Predicate.or [Predicate.eq PropertyInfo.pa 5,
          Predicate.eq PropertyInfo.pid 1]))).count ⟨1, 5⟩
      = if (⟨1, 5⟩ : Rec) ∈ specRecs [Op.put ⟨1, 5⟩]
          then (([Predicate.eq PropertyInfo.pa 5, Predicate.eq PropertyInfo.pid 1] :
            List Predicate).filter (fun a => evalPred a ⟨1, 5⟩)).length else 0 :=
  C5_or_duplicate_emission [PropertyInfo.pa] [Op.put ⟨1, 5⟩]
    (Predicate.or [Predicate.eq PropertyInfo.pa 5, Predicate.eq PropertyInfo.pid 1])
    [Predicate.eq PropertyInfo.pa 5, Predicate.eq PropertyInfo.pid 1] ⟨1, 5⟩ rfl (by decide)

/-- C6: `put(r)` first looks up the existing record with `r`'s primary key
and removes it from every alternative before inserting `r`, then returns
the stored record; afterwards every alternative — secondary indexes
included — holds exactly one record for `r`'s key (namely `r`) and no
stale entries of the old record. -/
theorem C6_put_upsert_no_stale (extras : List PropertyInfo) (ops : List Op) (r : Rec) :
    (Engine.put_ (applyOps (mkEngine extras) ops) r).1 = r
    ∧ ∀ s ∈ ((Engine.put_ (applyOps (mkEngine extras) ops) r).2).slots,
        (treeContents s.2).Perm (r :: (specRecs ops).filter (fun t => t.id != r.id)) := by
  refine ⟨rfl, ?_⟩
  intro s hs
  exact ((engineInv_put _ _ r (engineInv_reachable extras ops)).2.2 s hs).2

theorem C6_put_upsert_no_stale_witness :
    (treeContents ((PropertyInfo.pid, ([(1, [(⟨1, 7⟩ : Rec)])] : TreeState)) :
        PropertyInfo × TreeState).2).Perm
      ((⟨1, 7⟩ : Rec) :: (specRecs [Op.put ⟨1, 5⟩]).filter
        (fun t => t.id != (⟨1, 7⟩ : Rec).id)) :=
  (C6_put_upsert_no_stale [PropertyInfo.pa] [Op.put ⟨1, 5⟩] ⟨1, 7⟩).2
    (PropertyInfo.pid, [(1, [⟨1, 7⟩])]) (by decide)

/-- C7: `find` returns an independent copy of the matched record: the
facade returns its lookup through `maybeClone`, and in the heap model of
the defensive copy the clone lives at a fresh address holding an equal
value, so a later in-place mutation of the stored object does not change
the value the caller received. -/
theorem C7_find_returns_defensive_copy (h : List Rec) (a : Nat) (ha : a < h.length)
    (v : Rec) :
    (heapMaybeClone h a).2 ≠ a
    ∧ heapGet (heapMaybeClone h a).1 (heapMaybeClone h a).2 = heapGet h a
    ∧ heapGet (heapSet (heapMaybeClone h a).1 a v) (heapMaybeClone h a).2 = heapGet h a
    ∧ (∀ e k, Engine.find_ e (some (Sum.inl k)) = maybeClone (altFind e k)) := by
  refine ⟨ne_of_gt ha, ?_, ?_, fun e k => rfl⟩
  · show heapGet (h ++ [heapGet h a]) h.length = heapGet h a
    rw [heapGet, List.getD_eq_getElem?_getD, List.getElem?_concat_length]
    rfl
  · show heapGet (heapSet (h ++ [heapGet h a]) a v) h.length = heapGet h a
    rw [heapSet, List.set_append_left _ _ ha, heapGet, List.getD_eq_getElem?_getD,
      show h.length = (h.set a v).length from (List.length_set h a v).symm,
      List.getElem?_concat_length]
    rfl

theorem C7_find_returns_defensive_copy_witness :
    (heapMaybeClone [(⟨1, 5⟩ : Rec)] 0).2 ≠ 0 :=
  (C7_find_returns_defensive_copy [⟨1, 5⟩] 0 (by decide) ⟨9, 9⟩).1

/-- C8: `find` and `remove` on an absent key yield an explicit absent
result — both are total functions into `Option`, so no failure is ever
raised — and `remove` of an absent record leaves the engine state
completely unchanged. -/
theorem C8_absent_find_remove (extras : List PropertyInfo) (ops : List Op) (k : Nat)
    (r : Rec)
    (hk : specFind (specRecs ops) k = none)
    (hr : specFind (specRecs ops) r.id = none) :
    Engine.find_ (applyOps (mkEngine extras) ops) (some (Sum.inl k)) = none
    ∧ Engine.remove_ (applyOps (mkEngine extras) ops) (some r)
        = (none, applyOps (mkEngine extras) ops) := by
  have hinv := engineInv_reachable extras ops
  constructor
  · show maybeClone (altFind (applyOps (mkEngine extras) ops) k) = none
    exact (altFind_eq _ _ hinv k).trans hk
  · have hf : Engine.find_ (applyOps (mkEngine extras) ops) (some (Sum.inr r)) = none :=
      (find_eq_specFind _ _ hinv r).trans hr
    simp [Engine.remove_, hf]

theorem C8_absent_find_remove_witness :
    Engine.find_ (applyOps (mkEngine []) [Op.put ⟨1, 5⟩]) (some (Sum.inl 2)) = none :=
  (C8_absent_find_remove [] [Op.put ⟨1, 5⟩] 2 ⟨3, 9⟩ (by decide) (by decide)).1

/-- C9: `removeAll` changes only the record state: the list of registered
index alternatives — including any registered through `addIndex` — is
preserved exactly (same properties, in the same order), so indexes
registered before a `removeAll` remain in effect afterwards. -/
theorem C9_removeAll_preserves_indexes (e : Engine) (p : PropertyInfo)
    (skip limit : Nat) (order : Option PropertyInfo) (pred : Option Predicate) :
    (Engine.removeAll_ e skip limit order pred).slots.map Prod.fst
        = e.slots.map Prod.fst
    ∧ (Engine.removeAll_ (Engine.addIndex e p) skip limit order pred).slots.map Prod.fst
        = e.slots.map Prod.fst ++ [p] := by
  constructor <;> simp [Engine.removeAll_, Engine.addIndex]

/-- C10: `find` and `remove` called with a null argument return null
immediately — by the first pattern match, before any index is consulted —
and leave the engine state untouched. -/
theorem C10_null_arguments (e : Engine) :
    Engine.find_ e none = none ∧ Engine.remove_ e none = (none, e) :=
  ⟨rfl, rfl⟩

end Foam
